import Mathlib

/-
Verification of the highlite line-highlighting tool.

The development shallowly embeds the two core components of the program:

* the highlighting engine (src/lib.rs, modules rules and highlight): rules are
  compiled into a single alternation pattern with one named capture group per
  rule, and lines are rendered by iterating the non-overlapping leftmost
  matches of that pattern, wrapping each match in the winning rule's ANSI
  color escape and a reset escape;

* the hierarchical configuration loader (src/lib.rs, module arg_parser):
  a root document is resolved to a flat rule list by depth-first traversal of
  its include references, with a visited set of canonical paths breaking
  cycles and deduplicating repeated includes.

The regex crate is embedded as a small pattern AST (empty pattern, literal
character, alternation, concatenation - the fragment the source's combined
patterns and the specification's scenarios exercise) together with the
crate's match semantics: at one position the preference order of matches is
leftmost-first (earlier alternatives before later ones, in concatenation the
left factor's preference dominates), and the match iterator yields
non-overlapping matches left to right, skipping an empty match that starts
where the previous match ended and otherwise advancing by one character
after an empty match.  File reading, YAML parsing, path canonicalization and
path joining are external collaborators and are modelled as components of an
abstract file-system value.
-/

/-! ## Color model (src/lib.rs, module rules) -/

inductive PresetColor where
  | Red
  | Yellow
  | Blue
  | Green
  | Cyan
  | Magenta
deriving DecidableEq

/-- Color: a named preset or an RGB triple (u8 channels; only their decimal
rendering is ever used, so channels are plain naturals here). -/
inductive Color where
  | Preset (p : PresetColor)
  | RGB (r g b : Nat)
deriving DecidableEq

/-- Color::to_ansi from src/lib.rs. -/
def Color.to_ansi : Color → String
  | .Preset .Red => "\x1b[31m"
  | .Preset .Yellow => "\x1b[33m"
  | .Preset .Blue => "\x1b[34m"
  | .Preset .Green => "\x1b[32m"
  | .Preset .Cyan => "\x1b[36m"
  | .Preset .Magenta => "\x1b[35m"
  | .RGB r g b => "\x1b[38;2;" ++ toString r ++ ";" ++ toString g ++ ";" ++ toString b ++ "m"

/-- Rule from src/lib.rs: keyword, color, and the literal-or-regex flag. -/
structure Rule where
  keyword : String
  color : Color
  is_regex : Bool
deriving DecidableEq

/-! ## Regex fragment and regex-crate match semantics -/

/-- Pattern AST: the fragment of regex-crate patterns used by the combined
patterns of this program (escaped literals are concatenations of characters,
the zero-rule combined pattern is the empty pattern, user regexes from the
specification's scenarios are alternations of literals). -/
inductive Regex where
  | eps
  | char (c : Char)
  | alt (r1 r2 : Regex)
  | cat (r1 r2 : Regex)
deriving DecidableEq

/-- One-character match under the engine's global case-insensitivity flag
(RegexBuilder::case_insensitive; simple case folding). -/
def charMatches (ic : Bool) (c x : Char) : Bool :=
  if ic then x.toLower == c.toLower else x == c

/-- All matches of a pattern at the start of the input, as pairs of matched
prefix and remaining suffix, listed in the regex crate's leftmost-first
preference order: an alternation prefers its left branch, a concatenation
ranks by the left factor's preference first. -/
def pmatches (ic : Bool) : Regex → List Char → List (List Char × List Char)
  | .eps, s => [([], s)]
  | .char c, s =>
    match s with
    | [] => []
    | x :: xs => if charMatches ic c x then [([x], xs)] else []
  | .alt r1 r2, s => pmatches ic r1 s ++ pmatches ic r2 s
  | .cat r1 r2, s =>
    (pmatches ic r1 s).flatMap (fun p =>
      (pmatches ic r2 p.2).map (fun q => (p.1 ++ q.1, q.2)))

/-- regex::escape followed by compilation: a literal keyword becomes a
pattern matching exactly that character sequence. -/
def litRegexL : List Char → Regex
  | [] => .eps
  | c :: cs => .cat (.char c) (litRegexL cs)

def litRegex (kw : String) : Regex :=
  litRegexL kw.data

/-- patterns.join("|") from HighlightingEngine::new: zero alternatives give
the empty pattern, otherwise the alternatives are joined by alternation. -/
def combined : List Regex → Regex
  | [] => .eps
  | [p] => p
  | p :: rest => .alt p (combined rest)

/-- The index of the named capture group set by a match at this position:
with leftmost-first alternation the branch taken is the first alternative
that has a match here.  This is what the render loop's caps.name("rN") scan
recovers. -/
def winnerIdx (ic : Bool) : List Regex → List Char → Option Nat
  | [], _ => none
  | p :: rest, s =>
    if (pmatches ic p s).isEmpty then (winnerIdx ic rest s).map (· + 1)
    else some 0

/-- The match of the combined pattern at one position: the preferred whole
match together with the index of the capture group that fired. -/
def matchHere (ic : Bool) (ps : List Regex) (s : List Char) : Option (List Char × Option Nat) :=
  match (pmatches ic (combined ps) s).head? with
  | none => none
  | some p => some (p.1, winnerIdx ic ps s)

/-! ## Highlighting engine (src/lib.rs, module highlight) -/

/-- HighlightingEngine: the compiled combined pattern (kept as the list of
per-rule alternatives plus the global case flag) and the per-rule ANSI color
strings, index-aligned with the alternatives. -/
structure HighlightingEngine where
  patterns : List Regex
  ansi_colors : List String
  case_insensitive : Bool
deriving DecidableEq

/-- The pattern contributed by one rule in HighlightingEngine::new: a regex
rule's keyword is compiled as authored (parse stands for the regex crate's
pattern front end), a literal rule's keyword is escaped. -/
def compiledPattern (parse : String → Regex) (r : Rule) : Regex :=
  if r.is_regex then parse r.keyword else litRegex r.keyword

/-- HighlightingEngine::new from src/lib.rs. -/
def HighlightingEngine.new (parse : String → Regex) (rules : List Rule)
    (ignore_case : Bool) : HighlightingEngine :=
  { patterns := rules.map (compiledPattern parse)
  , ansi_colors := rules.map (fun r => r.color.to_ansi)
  , case_insensitive := ignore_case }

/-- The text pushed for one match by the render loop's inner scan over
ansi_colors: the first set capture group's color escape, the matched text,
and the reset escape; nothing when no group is set (only possible with zero
rules, where the match is empty). -/
def emit (colors : List String) (w : Option Nat) (m : List Char) : List Char :=
  match w with
  | none => []
  | some i =>
    match colors[i]? with
    | none => []
    | some col => col.data ++ m ++ "\x1b[0m".data

/-- render_line's scan, fused with the captures_iter iterator.  The Boolean
records whether the previous match ended exactly at the current position (in
that case an empty match here is skipped, per the iterator's empty-match
rule); the fuel argument only makes the recursion structural and is always
supplied large enough.  On exhausted fuel the remaining input is passed
through unchanged. -/
def renderGo (e : HighlightingEngine) : Nat → Bool → List Char → List Char
  | 0, _, s => s
  | n+1, atLastEnd, s =>
    match matchHere e.case_insensitive e.patterns s with
    | none =>
      match s with
      | [] => []
      | c :: rest => c :: renderGo e n false rest
    | some (m, w) =>
      if m.isEmpty then
        if atLastEnd then
          match s with
          | [] => []
          | c :: rest => c :: renderGo e n false rest
        else
          emit e.ansi_colors w m ++
            (match s with
             | [] => []
             | c :: rest => c :: renderGo e n false rest)
      else
        emit e.ansi_colors w m ++ renderGo e n true (s.drop m.length)

/-- HighlightingEngine::render_line from src/lib.rs, as a pure function (the
source clears and fills a caller-supplied buffer; the specification makes
buffer reuse a performance contract only). -/
def HighlightingEngine.render_line (e : HighlightingEngine) (input : String) : String :=
  String.mk (renderGo e (input.data.length + 1) false input.data)

/-- A trivial stand-in for the regex crate's pattern front end, usable when
an engine has no regex-flagged rules. -/
def parse0 : String → Regex := fun _ => Regex.eps

/-! ## Configuration loader (src/lib.rs, module arg_parser) -/

/-- The error kinds of the loader: unreadable document, malformed document,
and an artificial Fuel case standing for non-termination of the model's
fuelled recursion (proved unreachable below). -/
inductive ConfigError where
  | Io
  | Parse
  | Fuel
deriving DecidableEq

/-- FileConfig from src/lib.rs: the parsed shape of one configuration
document. -/
structure FileConfig where
  «include» : Option (List String)
  rules : Option (List Rule)
deriving DecidableEq

/-- The external collaborators of the loader, as one abstract file-system
value: path canonicalization (None is an I/O failure), the parsed documents
keyed by canonical path (a key mapped to none is a document that reads but
fails to parse; an absent key is an unreadable document), and the path
algebra used to resolve an include entry relative to the including
document's directory. -/
structure FileSystem where
  canon : String → Option String
  docs : List (String × Option FileConfig)
  parent : String → String
  join : String → String → String

/-- The include loop of load_rules_recursive: each include entry in order is
resolved against the including document's directory and loaded with the
current visited set; the recursive results are appended in order.  The
loader threads its visited set by returning the list of canonical paths
newly visited (the delta), which the caller appends. -/
def loadIncludes (f : String → List String → Except ConfigError (List Rule × List String))
    (fs : FileSystem) (dir : String) :
    List String → List String → Except ConfigError (List Rule × List String)
  | [], _ => .ok ([], [])
  | inc :: rest, visited =>
    match f (fs.join dir inc) visited with
    | .error e => .error e
    | .ok (r1, d1) =>
      match loadIncludes f fs dir rest (visited ++ d1) with
      | .error e => .error e
      | .ok (r2, d2) => .ok (r1 ++ r2, d1 ++ d2)

/-- load_rules_recursive from src/lib.rs.  The visited set is passed in and
the newly visited canonical paths are returned alongside the rules; the fuel
argument only makes the recursion structural and is always supplied large
enough (see the adequacy lemma below). -/
def load_rules_recursive (fs : FileSystem) : Nat → String → List String →
    Except ConfigError (List Rule × List String)
  | 0, _, _ => .error .Fuel
  | n+1, path, visited =>
    match fs.canon path with
    | none => .error .Io
    | some cp =>
      if cp ∈ visited then .ok ([], [])
      else
        match fs.docs.lookup cp with
        | none => .error .Io
        | some none => .error .Parse
        | some (some cfg) =>
          match loadIncludes (load_rules_recursive fs n) fs (fs.parent path)
              (cfg.«include».getD []) (visited ++ [cp]) with
          | .error e => .error e
          | .ok (incRules, d) => .ok (incRules ++ cfg.rules.getD [], cp :: d)

/-- The number of documents of the file system not yet visited; bounds the
include-nesting depth of the loader. -/
def unvisitedCount (fs : FileSystem) (visited : List String) : Nat :=
  (fs.docs.map Prod.fst).countP (fun c => !visited.contains c)

/-- load_rules_from_file from src/lib.rs: resolution from the root with an
initially empty visited set. -/
def load_rules_from_file (fs : FileSystem) (path : String) :
    Except ConfigError (List Rule) :=
  (load_rules_recursive fs (unvisitedCount fs [] + 1) path []).map Prod.fst

/-- The own rules of the document at a canonical path (empty when the
document is absent, malformed, or has no rules entry). -/
def ownRules (fs : FileSystem) (cp : String) : List Rule :=
  match fs.docs.lookup cp with
  | some (some cfg) => cfg.rules.getD []
  | _ => []

/-! ## Segment view of rendering (specification 4.2) -/

/-- Modelled from the spec: rendering decomposes the line into unmatched
characters emitted verbatim and non-overlapping matches emitted wrapped in
color and reset escapes. -/
inductive Seg where
  | plain (c : Char)
  | colored (w : Option Nat) (m : List Char)
deriving DecidableEq

/-- The input characters a segment accounts for. -/
def segIn : Seg → List Char
  | .plain c => [c]
  | .colored _ m => m

/-- The output text a segment produces. -/
def segOut (colors : List String) : Seg → List Char
  | .plain c => [c]
  | .colored w m => emit colors w m

/-- The segment decomposition of a line, following the same scan as
renderGo. -/
def segsGo (e : HighlightingEngine) : Nat → Bool → List Char → List Seg
  | 0, _, s => s.map .plain
  | n+1, atLastEnd, s =>
    match matchHere e.case_insensitive e.patterns s with
    | none =>
      match s with
      | [] => []
      | c :: rest => .plain c :: segsGo e n false rest
    | some (m, w) =>
      if m.isEmpty then
        if atLastEnd then
          match s with
          | [] => []
          | c :: rest => .plain c :: segsGo e n false rest
        else
          .colored w m ::
            (match s with
             | [] => []
             | c :: rest => .plain c :: segsGo e n false rest)
      else
        .colored w m :: segsGo e n true (s.drop m.length)

/-- The segment decomposition of a whole line. -/
def segsChars (e : HighlightingEngine) (input : String) : List Seg :=
  segsGo e (input.data.length + 1) false input.data

/-! ## Specification view of the loader (specification 4.1) -/

/-- Modelled from the spec: the include loop of the 4.1 resolution
algorithm, with the visited set threaded through the calls as the
specification describes (step 3). -/
def specIncludes (f : String → List String → Except ConfigError (List Rule × List String))
    (fs : FileSystem) (dir : String) :
    List String → List String → Except ConfigError (List Rule × List String)
  | [], visited => .ok ([], visited)
  | inc :: rest, visited =>
    match f (fs.join dir inc) visited with
    | .error e => .error e
    | .ok (r1, vis1) =>
      match specIncludes f fs dir rest vis1 with
      | .error e => .error e
      | .ok (r2, vis2) => .ok (r1 ++ r2, vis2)

/-- Modelled from the spec: the 4.1 resolution algorithm, returning the
accumulated rule list together with the grown visited set (steps 1-5: check
the canonical identity against the visited set, insert it, recurse into the
includes in order relative to the document's directory, then append the
document's own rules). -/
def specResolve (fs : FileSystem) : Nat → String → List String →
    Except ConfigError (List Rule × List String)
  | 0, _, _ => .error .Fuel
  | n+1, path, visited =>
    match fs.canon path with
    | none => .error .Io
    | some cp =>
      if cp ∈ visited then .ok ([], visited)
      else
        match fs.docs.lookup cp with
        | none => .error .Io
        | some none => .error .Parse
        | some (some cfg) =>
          match specIncludes (specResolve fs n) fs (fs.parent path)
              (cfg.«include».getD []) (visited ++ [cp]) with
          | .error e => .error e
          | .ok (incRules, vis') => .ok (incRules ++ cfg.rules.getD [], vis')

/-! ## Basic lemmas about the match semantics -/

theorem mem_of_head?_eq {α : Type} {l : List α} {a : α} (h : l.head? = some a) :
    a ∈ l := by
  cases l with
  | nil => simp at h
  | cons x xs =>
    simp only [List.head?_cons, Option.some.injEq] at h
    simp [h.symm]

/-- Every match returned at a position splits the input there: the matched
prefix followed by the returned suffix is the input. -/
theorem pmatches_append (ic : Bool) :
    ∀ (re : Regex) (s : List Char), ∀ p ∈ pmatches ic re s, p.1 ++ p.2 = s := by
  intro re
  induction re with
  | eps =>
    intro s p hp
    simp only [pmatches, List.mem_singleton] at hp
    simp [hp]
  | char c =>
    intro s p hp
    cases s with
    | nil => simp [pmatches] at hp
    | cons x xs =>
      simp only [pmatches] at hp
      split at hp
      · simp only [List.mem_singleton] at hp
        simp [hp]
      · simp at hp
  | alt r1 r2 ih1 ih2 =>
    intro s p hp
    simp only [pmatches, List.mem_append] at hp
    rcases hp with h | h
    · exact ih1 s p h
    · exact ih2 s p h
  | cat r1 r2 ih1 ih2 =>
    intro s p hp
    simp only [pmatches, List.mem_flatMap, List.mem_map] at hp
    obtain ⟨q, hq, r, hr, rfl⟩ := hp
    have h1 := ih1 s q hq
    have h2 := ih2 q.2 r hr
    calc (q.1 ++ r.1) ++ r.2 = q.1 ++ (r.1 ++ r.2) := List.append_assoc ..
    _ = q.1 ++ q.2 := by rw [h2]
    _ = s := h1

/-- For at least one rule, the combined pattern's matches are the
concatenation, in rule order, of the individual alternatives' matches. -/
theorem pmatches_combined (ic : Bool) :
    ∀ (rest : List Regex) (p : Regex) (s : List Char),
      pmatches ic (combined (p :: rest)) s =
        ((p :: rest).map (fun q => pmatches ic q s)).flatten := by
  intro rest
  induction rest with
  | nil => intro p s; simp [combined]
  | cons q rest' ih =>
    intro p s
    simp only [combined, pmatches, List.map_cons, List.flatten_cons]
    rw [ih q s]
    simp

theorem matchHere_nil (ic : Bool) (s : List Char) :
    matchHere ic [] s = some ([], none) := by
  simp [matchHere, combined, pmatches, winnerIdx]

/-- The head of the concatenated per-rule match lists comes from the first
rule with any match here: the capture-group index points at that rule, the
head is that rule's preferred match, and every earlier rule has no match at
this position. -/
theorem flatten_head_winner (ic : Bool) :
    ∀ (ps : List Regex) (s : List Char) (pr : List Char × List Char),
      ((ps.map (fun q => pmatches ic q s)).flatten).head? = some pr →
      ∃ i pi, winnerIdx ic ps s = some i ∧ ps[i]? = some pi ∧
        (pmatches ic pi s).head? = some pr ∧
        ∀ j pj, j < i → ps[j]? = some pj → pmatches ic pj s = [] := by
  intro ps
  induction ps with
  | nil => intro s pr h; simp at h
  | cons p rest ih =>
    intro s pr h
    simp only [List.map_cons, List.flatten_cons] at h
    cases hp : pmatches ic p s with
    | nil =>
      rw [hp, List.nil_append] at h
      obtain ⟨i', pi, hw, hg, hh, hj⟩ := ih s pr h
      refine ⟨i' + 1, pi, ?_, ?_, hh, ?_⟩
      · simp [winnerIdx, hp, hw]
      · simpa using hg
      · intro j pj hj1 hg2
        cases j with
        | zero =>
          simp only [List.getElem?_cons_zero, Option.some.injEq] at hg2
          rw [← hg2]
          exact hp
        | succ j' =>
          apply hj j' pj (by omega)
          simpa using hg2
    | cons x t =>
      rw [hp] at h
      simp only [List.cons_append, List.head?_cons, Option.some.injEq] at h
      refine ⟨0, p, ?_, by simp, ?_, ?_⟩
      · simp [winnerIdx, hp]
      · rw [hp, List.head?_cons, h]
      · intro j pj hj _
        omega

/-- A match found at a position splits the input there: the matched prefix
followed by the rest of the input, recovered by drop, is the input. -/
theorem matchHere_split (ic : Bool) (ps : List Regex) (s m : List Char)
    (w : Option Nat) (h : matchHere ic ps s = some (m, w)) :
    m ++ s.drop m.length = s := by
  unfold matchHere at h
  cases hh : (pmatches ic (combined ps) s).head? with
  | none => rw [hh] at h; simp at h
  | some pr =>
    rw [hh] at h
    injection h with h'
    have hm : pr.1 = m := congrArg Prod.fst h'
    have hsplit := pmatches_append ic (combined ps) s pr (mem_of_head?_eq hh)
    rw [← hm, ← hsplit, List.drop_left]

/-- When every rule fails at a position, the combined pattern of one or more
rules has no match there. -/
theorem matchHere_eq_none (ic : Bool) (p : Regex) (rest : List Regex) (s : List Char)
    (hall : ∀ q ∈ p :: rest, pmatches ic q s = []) :
    matchHere ic (p :: rest) s = none := by
  unfold matchHere
  rw [pmatches_combined]
  have hnil : (List.map (fun q => pmatches ic q s) (p :: rest)).flatten = [] := by
    rw [List.flatten_eq_nil_iff]
    intro l hl
    obtain ⟨q, hq, rfl⟩ := List.mem_map.mp hl
    exact hall q hq
  rw [hnil]
  rfl

/-- First-listed rule wins: a match of the combined pattern of one or more
rules is attributed to the first rule that can match at this position, the
matched text is that rule's own preferred match, and no earlier rule has any
match here - later rules, whatever they would match, do not influence the
result. -/
theorem matchHere_first_wins (ic : Bool) (p : Regex) (rest : List Regex)
    (s m : List Char) (w : Option Nat)
    (h : matchHere ic (p :: rest) s = some (m, w)) :
    ∃ i pi, w = some i ∧ (p :: rest)[i]? = some pi ∧
      (pmatches ic pi s).head? = some (m, s.drop m.length) ∧
      ∀ j pj, j < i → (p :: rest)[j]? = some pj → pmatches ic pj s = [] := by
  have hsplit := matchHere_split ic (p :: rest) s m w h
  unfold matchHere at h
  cases hh : (pmatches ic (combined (p :: rest)) s).head? with
  | none => rw [hh] at h; simp at h
  | some pr =>
    rw [hh] at h
    injection h with h'
    have hm : pr.1 = m := congrArg Prod.fst h'
    have hw : winnerIdx ic (p :: rest) s = w := congrArg Prod.snd h'
    rw [pmatches_combined] at hh
    obtain ⟨i, pi, hwi, hg, hhead, hearlier⟩ := flatten_head_winner ic (p :: rest) s pr hh
    have hpr : pr = (m, s.drop m.length) := by
      have h2 : pr.1 ++ pr.2 = s :=
        pmatches_append ic (combined (p :: rest)) s pr
          (by rw [pmatches_combined]; exact mem_of_head?_eq hh)
      have h3 : pr.2 = s.drop m.length := by
        rw [← h2, hm, List.drop_left]
      rw [Prod.ext_iff]
      exact ⟨by simpa using hm, by simpa using h3⟩
    exact ⟨i, pi, by rw [← hw, hwi], hg, by rw [← hpr]; exact hhead, hearlier⟩

/-- When some rule of the front block can match at a position, the winning
capture group of the whole rule list lies in the front block (earlier rules
take precedence over anything appended after them). -/
theorem winnerIdx_append_front (ic : Bool) :
    ∀ (front back : List Regex) (s : List Char) (j : Nat) (pj : Regex),
      front[j]? = some pj → pmatches ic pj s ≠ [] →
      ∃ i, winnerIdx ic (front ++ back) s = some i ∧ i < front.length := by
  intro front
  induction front with
  | nil => intro back s j pj hg _; simp at hg
  | cons f front' ih =>
    intro back s j pj hg hne
    cases hf : pmatches ic f s with
    | cons x t =>
      refine ⟨0, ?_, by simp⟩
      simp [winnerIdx, hf]
    | nil =>
      cases j with
      | zero =>
        simp only [List.getElem?_cons_zero, Option.some.injEq] at hg
        rw [← hg] at hne
        exact absurd hf hne
      | succ j' =>
        simp only [List.getElem?_cons_succ] at hg
        obtain ⟨i', hw, hlt⟩ := ih back s j' pj hg hne
        refine ⟨i' + 1, ?_, by simp; omega⟩
        simp [winnerIdx, hf, List.cons_append, hw]

/-- The winning index reported by a match of the combined pattern is the
winnerIdx of the rule list. -/
theorem matchHere_winner (ic : Bool) (ps : List Regex) (s m : List Char)
    (w : Option Nat) (h : matchHere ic ps s = some (m, w)) :
    w = winnerIdx ic ps s := by
  unfold matchHere at h
  cases hh : (pmatches ic (combined ps) s).head? with
  | none => rw [hh] at h; simp at h
  | some pr =>
    rw [hh] at h
    injection h with h'
    exact (congrArg Prod.snd h').symm

/-! ## Literal matching and the case flag -/

/-- Whether a literal keyword matches at the start of the input under the
global case flag, character by character. -/
def litAccepts (ic : Bool) : List Char → List Char → Bool
  | [], _ => true
  | _ :: _, [] => false
  | c :: ks, x :: xs => charMatches ic c x && litAccepts ic ks xs

/-- An escaped literal keyword matches at a position exactly when its
characters match the input there one by one under the engine-wide case
flag, and then it matches precisely the input's next keyword-length
characters: the one case flag governs every literal rule uniformly. -/
theorem pmatches_lit (ic : Bool) :
    ∀ (kw s : List Char),
      pmatches ic (litRegexL kw) s =
        if litAccepts ic kw s then [(s.take kw.length, s.drop kw.length)] else [] := by
  intro kw
  induction kw with
  | nil => intro s; simp [litRegexL, pmatches, litAccepts]
  | cons c ks ih =>
    intro s
    cases s with
    | nil => simp [litRegexL, pmatches, litAccepts]
    | cons x xs =>
      by_cases hc : charMatches ic c x
      · by_cases ha : litAccepts ic ks xs
        · simp [litRegexL, pmatches, litAccepts, hc, ih, ha]
        · simp [litRegexL, pmatches, litAccepts, hc, ih, ha]
      · simp [litRegexL, pmatches, litAccepts, hc]

/-! ## Rendering lemmas -/

theorem flatten_map_singleton : ∀ (s : List Char), (s.map (fun c => [c])).flatten = s := by
  intro s
  induction s with
  | nil => rfl
  | cons c cs ih => simp [ih]

/-- The segment decomposition accounts for every input character exactly
once, in order: matches never share characters, nothing is omitted and
nothing is duplicated. -/
theorem segsGo_input (e : HighlightingEngine) :
    ∀ (n : Nat) (b : Bool) (s : List Char),
      ((segsGo e n b s).map segIn).flatten = s := by
  intro n
  induction n with
  | zero =>
    intro b s
    simp only [segsGo, List.map_map]
    have : segIn ∘ Seg.plain = fun c => [c] := by
      funext c
      rfl
    rw [this, flatten_map_singleton]
  | succ n ih =>
    intro b s
    simp only [segsGo]
    cases hm : matchHere e.case_insensitive e.patterns s with
    | none =>
      cases s with
      | nil => rfl
      | cons c rest => simp [segIn, ih]
    | some mw =>
      obtain ⟨m, w⟩ := mw
      by_cases hme : m.isEmpty
      · have hm0 : m = [] := List.isEmpty_iff.mp hme
        subst hm0
        simp only [List.isEmpty_nil, if_true]
        cases b with
        | true =>
          cases s with
          | nil => rfl
          | cons c rest => simp [segIn, ih]
        | false =>
          cases s with
          | nil => simp [segIn]
          | cons c rest => simp [segIn, ih]
      · have hsplit := matchHere_split e.case_insensitive e.patterns s m w hm
        simp only [hme, Bool.false_eq_true, if_false, List.map_cons, List.flatten_cons]
        rw [segIn, ih]
        exact hsplit

/-- The rendered output is exactly the concatenation of the rendered
segments: unmatched characters verbatim and each match wrapped in its
winning rule's color escape and the reset escape. -/
theorem renderGo_eq_segs (e : HighlightingEngine) :
    ∀ (n : Nat) (b : Bool) (s : List Char),
      renderGo e n b s = ((segsGo e n b s).map (segOut e.ansi_colors)).flatten := by
  intro n
  induction n with
  | zero =>
    intro b s
    simp only [renderGo, segsGo, List.map_map]
    have : segOut e.ansi_colors ∘ Seg.plain = fun c => [c] := by
      funext c
      rfl
    rw [this, flatten_map_singleton]
  | succ n ih =>
    intro b s
    simp only [renderGo, segsGo]
    cases hm : matchHere e.case_insensitive e.patterns s with
    | none =>
      cases s with
      | nil => rfl
      | cons c rest => simp [segOut, ih]
    | some mw =>
      obtain ⟨m, w⟩ := mw
      by_cases hme : m.isEmpty
      · have hm0 : m = [] := List.isEmpty_iff.mp hme
        subst hm0
        simp only [List.isEmpty_nil, if_true]
        cases b with
        | true =>
          cases s with
          | nil => rfl
          | cons c rest => simp [segOut, ih]
        | false =>
          cases s with
          | nil => simp [segOut]
          | cons c rest => simp [segOut, ih]
      · simp only [hme, Bool.false_eq_true, if_false, List.map_cons, List.flatten_cons]
        rw [segOut, ih]

/-- With no rules the combined pattern is the empty pattern: it matches the
empty string at every position, and no capture group ever fires. -/
theorem renderGo_nil_patterns (e : HighlightingEngine) (hp : e.patterns = []) :
    ∀ (n : Nat) (b : Bool) (s : List Char), renderGo e n b s = s := by
  intro n
  induction n with
  | zero => intro b s; rfl
  | succ n ih =>
    intro b s
    simp only [renderGo, hp, matchHere_nil, List.isEmpty_nil, if_true]
    cases b <;> cases s <;> simp [emit, ih]

/-- A line on which the combined pattern never matches renders unchanged. -/
theorem renderGo_no_match (e : HighlightingEngine) :
    ∀ (n : Nat) (b : Bool) (s : List Char),
      (∀ t, t <:+ s → matchHere e.case_insensitive e.patterns t = none) →
      renderGo e n b s = s := by
  intro n
  induction n with
  | zero => intro b s _; rfl
  | succ n ih =>
    intro b s H
    simp only [renderGo, H s List.suffix_rfl]
    cases s with
    | nil => rfl
    | cons c rest =>
      show c :: renderGo e n false rest = c :: rest
      rw [ih false rest]
      intro t ht
      exact ht.trans (List.suffix_cons c rest) |> H t

/-! ## Loader lemmas: counting and fuel adequacy -/

theorem countP_le_countP {α : Type} (p q : α → Bool) (h : ∀ a, p a = true → q a = true) :
    ∀ l : List α, l.countP p ≤ l.countP q := by
  intro l
  induction l with
  | nil => simp
  | cons x xs ih =>
    rw [List.countP_cons, List.countP_cons]
    have h2 : (if p x = true then 1 else 0) ≤ (if q x = true then 1 else 0) := by
      by_cases hx : p x = true
      · simp [hx, h x hx]
      · simp [hx]
    exact Nat.add_le_add ih h2

theorem countP_lt_of_mem {α : Type} (p q : α → Bool) (a : α)
    (h : ∀ x, p x = true → q x = true) (hp : p a = false) (hq : q a = true) :
    ∀ l : List α, a ∈ l → l.countP p < l.countP q := by
  intro l
  induction l with
  | nil => simp
  | cons x xs ih =>
    intro hmem
    rw [List.countP_cons, List.countP_cons]
    rcases List.mem_cons.mp hmem with rfl | hmem'
    · rw [hp, hq]
      simp only [Bool.false_eq_true, if_false, if_true, Nat.add_zero]
      exact Nat.lt_succ_of_le (countP_le_countP p q h xs)
    · have h1 := ih hmem'
      have h2 : (if p x = true then 1 else 0) ≤ (if q x = true then 1 else 0) := by
        by_cases hx : p x = true
        · simp [hx, h x hx]
        · simp [hx]
      exact Nat.add_lt_add_of_lt_of_le h1 h2

theorem lookup_mem_fst {β : Type} (cp : String) (v : β) :
    ∀ l : List (String × β), l.lookup cp = some v → cp ∈ l.map Prod.fst := by
  intro l
  induction l with
  | nil => intro h; simp [List.lookup] at h
  | cons kv rest ih =>
    intro h
    obtain ⟨k, b⟩ := kv
    simp only [List.lookup] at h
    by_cases hk : cp == k
    · exact List.mem_cons.mpr (Or.inl (eq_of_beq hk))
    · rw [Bool.not_eq_true] at hk
      rw [hk] at h
      exact List.mem_cons.mpr (Or.inr (ih h))

theorem unvisitedCount_append_le (fs : FileSystem) (v d : List String) :
    unvisitedCount fs (v ++ d) ≤ unvisitedCount fs v := by
  apply countP_le_countP
  intro a ha
  simp at ha ⊢
  exact ha.1

theorem unvisitedCount_insert_lt (fs : FileSystem) (v : List String) (cp : String)
    (hdom : cp ∈ fs.docs.map Prod.fst) (hnv : cp ∉ v) :
    unvisitedCount fs (v ++ [cp]) < unvisitedCount fs v := by
  apply countP_lt_of_mem _ _ cp _ _ _ _ hdom
  · intro x hx
    simp at hx ⊢
    exact hx.1
  · simp
  · simp [hnv]

/-- The include loop never runs out of fuel when the per-document loader it
is given cannot, for any visited set at least as advanced as its own. -/
theorem loadIncludes_noFuel (fs : FileSystem) (k : Nat)
    (f : String → List String → Except ConfigError (List Rule × List String))
    (hf : ∀ q w, unvisitedCount fs w ≤ k → f q w ≠ .error .Fuel) :
    ∀ (incs : List String) (dir : String) (v : List String),
      unvisitedCount fs v ≤ k →
      loadIncludes f fs dir incs v ≠ .error .Fuel := by
  intro incs
  induction incs with
  | nil => intro dir v hv; simp [loadIncludes]
  | cons inc rest ih =>
    intro dir v hv
    simp only [loadIncludes]
    cases hfr : f (fs.join dir inc) v with
    | error e =>
      intro hc
      injection hc with h'
      subst h'
      exact hf _ _ hv hfr
    | ok rd =>
      obtain ⟨r1, d1⟩ := rd
      cases hrest : loadIncludes f fs dir rest (v ++ d1) with
      | error e =>
        simp only [hrest]
        intro hc
        injection hc with h'
        subst h'
        exact ih dir (v ++ d1)
          (Nat.le_trans (unvisitedCount_append_le fs v d1) hv) hrest
      | ok rd2 =>
        obtain ⟨r2, d2⟩ := rd2
        simp [hrest]

/-- Fuel adequacy: with more fuel than there are unvisited documents, the
loader never exhausts its fuel - the recursion of load_rules_recursive
terminates on every configuration graph. -/
theorem load_noFuel (fs : FileSystem) :
    ∀ (n : Nat) (p : String) (v : List String),
      unvisitedCount fs v < n →
      load_rules_recursive fs n p v ≠ .error .Fuel := by
  intro n
  induction n with
  | zero => intro p v h; exact absurd h (Nat.not_lt_zero _)
  | succ n ih =>
    intro p v hv
    simp only [load_rules_recursive]
    cases fs.canon p with
    | none => simp
    | some cp =>
      by_cases hcp : cp ∈ v
      · simp [hcp]
      · simp only [hcp, if_false]
        cases hl : fs.docs.lookup cp with
        | none => simp
        | some ocfg =>
          cases ocfg with
          | none => simp
          | some cfg =>
            have hdom := lookup_mem_fst cp (some cfg) fs.docs hl
            have hlt : unvisitedCount fs (v ++ [cp]) < unvisitedCount fs v :=
              unvisitedCount_insert_lt fs v cp hdom hcp
            have hnf := loadIncludes_noFuel fs (unvisitedCount fs v - 1)
              (load_rules_recursive fs n)
              (fun q w hw => ih q w (by omega))
              (cfg.«include».getD []) (fs.parent p) (v ++ [cp]) (by omega)
            cases hli : loadIncludes (load_rules_recursive fs n) fs (fs.parent p)
                (cfg.«include».getD []) (v ++ [cp]) with
            | error e =>
              simp only [hli]
              intro hc
              injection hc with h'
              subst h'
              exact hnf hli
            | ok rd =>
              obtain ⟨r1, d1⟩ := rd
              simp [hli]

/-! ## Loader lemmas: the visited delta and each document's contribution -/

/-- The include loop's newly visited documents are distinct and fresh,
provided the per-document loader's are. -/
theorem loadIncludes_delta (fs : FileSystem)
    (f : String → List String → Except ConfigError (List Rule × List String))
    (hf : ∀ q w r d, f q w = .ok (r, d) → d.Nodup ∧ ∀ x ∈ d, x ∉ w) :
    ∀ (incs : List String) (dir : String) (v : List String) (r : List Rule) (d : List String),
      loadIncludes f fs dir incs v = .ok (r, d) → d.Nodup ∧ ∀ x ∈ d, x ∉ v := by
  intro incs
  induction incs with
  | nil =>
    intro dir v r d h
    simp only [loadIncludes, Except.ok.injEq, Prod.mk.injEq] at h
    rw [← h.2]
    simp
  | cons inc rest ih =>
    intro dir v r d h
    simp only [loadIncludes] at h
    cases hfr : f (fs.join dir inc) v with
    | error e => simp [hfr] at h
    | ok rd1 =>
      obtain ⟨r1, d1⟩ := rd1
      simp only [hfr] at h
      cases hrest : loadIncludes f fs dir rest (v ++ d1) with
      | error e => simp [hrest] at h
      | ok rd2 =>
        obtain ⟨r2, d2⟩ := rd2
        simp only [hrest, Except.ok.injEq, Prod.mk.injEq] at h
        obtain ⟨h1, h2⟩ := hf _ _ _ _ hfr
        obtain ⟨h3, h4⟩ := ih dir (v ++ d1) r2 d2 hrest
        rw [← h.2]
        constructor
        · refine List.Nodup.append h1 h3 ?_
          intro a ha1 ha2
          exact h4 a ha2 (List.mem_append_right v ha1)
        · intro x hx
          rcases List.mem_append.mp hx with hx1 | hx2
          · exact h2 x hx1
          · intro hxv
            exact h4 x hx2 (List.mem_append_left d1 hxv)

/-- The loader's newly visited documents are distinct and all fresh with
respect to the incoming visited set. -/
theorem load_delta (fs : FileSystem) :
    ∀ (n : Nat) (p : String) (v : List String) (r : List Rule) (d : List String),
      load_rules_recursive fs n p v = .ok (r, d) → d.Nodup ∧ ∀ x ∈ d, x ∉ v := by
  intro n
  induction n with
  | zero => intro p v r d h; simp [load_rules_recursive] at h
  | succ n ih =>
    intro p v r d h
    simp only [load_rules_recursive] at h
    cases hc : fs.canon p with
    | none => simp [hc] at h
    | some cp =>
      simp only [hc] at h
      by_cases hcp : cp ∈ v
      · rw [if_pos hcp] at h
        simp only [Except.ok.injEq, Prod.mk.injEq] at h
        rw [← h.2]
        simp
      · rw [if_neg hcp] at h
        cases hl : fs.docs.lookup cp with
        | none => simp [hl] at h
        | some ocfg =>
          cases ocfg with
          | none => simp [hl] at h
          | some cfg =>
            simp only [hl] at h
            cases hli : loadIncludes (load_rules_recursive fs n) fs (fs.parent p)
                (cfg.«include».getD []) (v ++ [cp]) with
            | error e => simp [hli] at h
            | ok rd1 =>
              obtain ⟨r1, d1⟩ := rd1
              simp only [hli, Except.ok.injEq, Prod.mk.injEq] at h
              obtain ⟨h3, h4⟩ := loadIncludes_delta fs (load_rules_recursive fs n)
                (fun q w r' d' hq => ih q w r' d' hq) _ _ _ _ _ hli
              rw [← h.2]
              constructor
              · rw [List.nodup_cons]
                refine ⟨fun hmem => ?_, h3⟩
                exact h4 cp hmem (List.mem_append_right v (List.mem_singleton.mpr rfl))
              · intro x hx
                rcases List.mem_cons.mp hx with rfl | hx'
                · exact hcp
                · intro hxv
                  exact h4 x hx' (List.mem_append_left [cp] hxv)

/-- The include loop's rules are a permutation of the own rules of its newly
visited documents, one contribution per document, provided the per-document
loader's are. -/
theorem loadIncludes_perm (fs : FileSystem)
    (f : String → List String → Except ConfigError (List Rule × List String))
    (hf : ∀ q w r d, f q w = .ok (r, d) → r.Perm ((d.map (ownRules fs)).flatten)) :
    ∀ (incs : List String) (dir : String) (v : List String) (r : List Rule) (d : List String),
      loadIncludes f fs dir incs v = .ok (r, d) →
      r.Perm ((d.map (ownRules fs)).flatten) := by
  intro incs
  induction incs with
  | nil =>
    intro dir v r d h
    simp only [loadIncludes, Except.ok.injEq, Prod.mk.injEq] at h
    rw [← h.1, ← h.2]
    simp
  | cons inc rest ih =>
    intro dir v r d h
    simp only [loadIncludes] at h
    cases hfr : f (fs.join dir inc) v with
    | error e => simp [hfr] at h
    | ok rd1 =>
      obtain ⟨r1, d1⟩ := rd1
      simp only [hfr] at h
      cases hrest : loadIncludes f fs dir rest (v ++ d1) with
      | error e => simp [hrest] at h
      | ok rd2 =>
        obtain ⟨r2, d2⟩ := rd2
        simp only [hrest, Except.ok.injEq, Prod.mk.injEq] at h
        rw [← h.1, ← h.2]
        rw [List.map_append, List.flatten_append]
        exact List.Perm.append (hf _ _ _ _ hfr) (ih dir (v ++ d1) r2 d2 hrest)

/-- Every successful load returns, up to order, exactly the concatenated own
rules of its newly visited documents: each distinct document contributes its
own rules exactly once. -/
theorem load_perm (fs : FileSystem) :
    ∀ (n : Nat) (p : String) (v : List String) (r : List Rule) (d : List String),
      load_rules_recursive fs n p v = .ok (r, d) →
      r.Perm ((d.map (ownRules fs)).flatten) := by
  intro n
  induction n with
  | zero => intro p v r d h; simp [load_rules_recursive] at h
  | succ n ih =>
    intro p v r d h
    simp only [load_rules_recursive] at h
    cases hc : fs.canon p with
    | none => simp [hc] at h
    | some cp =>
      simp only [hc] at h
      by_cases hcp : cp ∈ v
      · rw [if_pos hcp] at h
        simp only [Except.ok.injEq, Prod.mk.injEq] at h
        rw [← h.1, ← h.2]
        simp
      · rw [if_neg hcp] at h
        cases hl : fs.docs.lookup cp with
        | none => simp [hl] at h
        | some ocfg =>
          cases ocfg with
          | none => simp [hl] at h
          | some cfg =>
            simp only [hl] at h
            cases hli : loadIncludes (load_rules_recursive fs n) fs (fs.parent p)
                (cfg.«include».getD []) (v ++ [cp]) with
            | error e => simp [hli] at h
            | ok rd1 =>
              obtain ⟨r1, d1⟩ := rd1
              simp only [hli, Except.ok.injEq, Prod.mk.injEq] at h
              have hperm := loadIncludes_perm fs (load_rules_recursive fs n)
                (fun q w r' d' hq => ih q w r' d' hq) _ _ _ _ _ hli
              rw [← h.1, ← h.2]
              have hown : ownRules fs cp = cfg.rules.getD [] := by
                unfold ownRules
                rw [hl]
              rw [List.map_cons, List.flatten_cons, hown]
              exact (List.perm_append_comm).trans
                (List.Perm.append_left (cfg.rules.getD []) hperm)

/-- A repeated visit of an already visited document returns an empty
contribution immediately - it is not an error. -/
theorem load_revisit (fs : FileSystem) (n : Nat) (p : String) (v : List String)
    (cp : String) (hc : fs.canon p = some cp) (hcp : cp ∈ v) :
    load_rules_recursive fs (n+1) p v = .ok ([], []) := by
  simp [load_rules_recursive, hc, hcp]

/-- A path that cannot be canonicalized aborts the load with an I/O error. -/
theorem load_canon_err (fs : FileSystem) (n : Nat) (p : String) (v : List String)
    (hc : fs.canon p = none) :
    load_rules_recursive fs (n+1) p v = .error .Io := by
  simp [load_rules_recursive, hc]

/-- A newly encountered document that cannot be read aborts the load with an
I/O error. -/
theorem load_read_err (fs : FileSystem) (n : Nat) (p : String) (v : List String)
    (cp : String) (hc : fs.canon p = some cp) (hcp : cp ∉ v)
    (hl : fs.docs.lookup cp = none) :
    load_rules_recursive fs (n+1) p v = .error .Io := by
  simp [load_rules_recursive, hc, hcp, hl]

/-- A newly encountered document that reads but does not parse aborts the
load with a parse error. -/
theorem load_parse_err (fs : FileSystem) (n : Nat) (p : String) (v : List String)
    (cp : String) (hc : fs.canon p = some cp) (hcp : cp ∉ v)
    (hl : fs.docs.lookup cp = some none) :
    load_rules_recursive fs (n+1) p v = .error .Parse := by
  simp [load_rules_recursive, hc, hcp, hl]

/-! ## Equivalence of the loader with the specification 4.1 algorithm -/

/-- The include loops agree: threading the visited set through equals
returning the delta and appending it. -/
theorem specIncludes_eq (fs : FileSystem)
    (f fSpec : String → List String → Except ConfigError (List Rule × List String))
    (hf : ∀ q w, fSpec q w = (f q w).map (fun rd => (rd.1, w ++ rd.2))) :
    ∀ (incs : List String) (dir : String) (v : List String),
      specIncludes fSpec fs dir incs v =
        (loadIncludes f fs dir incs v).map (fun rd => (rd.1, v ++ rd.2)) := by
  intro incs
  induction incs with
  | nil => intro dir v; simp [specIncludes, loadIncludes, Except.map]
  | cons inc rest ih =>
    intro dir v
    simp only [specIncludes, loadIncludes, hf]
    cases hfr : f (fs.join dir inc) v with
    | error e => simp [hfr, Except.map]
    | ok rd1 =>
      obtain ⟨r1, d1⟩ := rd1
      simp only [hfr, Except.map]
      rw [ih dir (v ++ d1)]
      cases hrest : loadIncludes f fs dir rest (v ++ d1) with
      | error e => simp [hrest, Except.map]
      | ok rd2 =>
        obtain ⟨r2, d2⟩ := rd2
        simp [hrest, Except.map, List.append_assoc]

/-- The loader implements the specification 4.1 algorithm: for every file
system, fuel, path and visited set, the specification's threaded-visited
resolution returns exactly the loader's rules, in the same order, with the
visited set grown by exactly the loader's delta. -/
theorem specResolve_eq (fs : FileSystem) :
    ∀ (n : Nat) (p : String) (v : List String),
      specResolve fs n p v =
        (load_rules_recursive fs n p v).map (fun rd => (rd.1, v ++ rd.2)) := by
  intro n
  induction n with
  | zero => intro p v; rfl
  | succ n ih =>
    intro p v
    simp only [specResolve, load_rules_recursive]
    cases hc : fs.canon p with
    | none => rfl
    | some cp =>
      by_cases hcp : cp ∈ v
      · simp [hcp, Except.map]
      · simp only [hcp, if_false]
        cases hl : fs.docs.lookup cp with
        | none => rfl
        | some ocfg =>
          cases ocfg with
          | none => rfl
          | some cfg =>
            simp only [specIncludes_eq fs (load_rules_recursive fs n) (specResolve fs n)
              (fun q w => ih q w)]
            cases hli : loadIncludes (load_rules_recursive fs n) fs (fs.parent p)
                (cfg.«include».getD []) (v ++ [cp]) with
            | error e => simp [hli, Except.map]
            | ok rd1 =>
              obtain ⟨r1, d1⟩ := rd1
              simp [hli, Except.map]

/-! ## Concrete fixtures -/

theorem string_mk_data (s : String) : String.mk s.data = s := by
  cases s
  rfl

def ruleA : Rule := ⟨"A", .Preset .Red, false⟩

def ruleB : Rule := ⟨"B", .Preset .Blue, false⟩

def ruleRoot : Rule := ⟨"R", .Preset .Green, false⟩

def ruleX : Rule := ⟨"X", .Preset .Cyan, false⟩

def ruleY : Rule := ⟨"Y", .Preset .Magenta, false⟩

/-- The included rule of the precedence fixture. -/
def xRed : Rule := ⟨"x", .Preset .Red, false⟩

/-- The including document's own rule of the precedence fixture. -/
def xBlue : Rule := ⟨"x", .Preset .Blue, false⟩

/-- Two documents including each other: a direct include cycle. -/
def fsCycle : FileSystem :=
  { canon := fun p => if p = "a.yml" ∨ p = "b.yml" then some p else none
  , docs := [("a.yml", some ⟨some ["b.yml"], some [ruleA]⟩),
             ("b.yml", some ⟨some ["a.yml"], some [ruleB]⟩)]
  , parent := fun _ => "."
  , join := fun _ inc => inc }

/-- An acyclic diamond: the root includes x and y, y includes x again, and
include entries are resolved relative to the root's directory d. -/
def fsC3 : FileSystem :=
  { canon := fun p => if p = "d/root.yml" ∨ p = "d/x.yml" ∨ p = "d/y.yml" then some p else none
  , docs := [("d/root.yml", some ⟨some ["x.yml", "y.yml"], some [ruleRoot]⟩),
             ("d/x.yml", some ⟨none, some [ruleX]⟩),
             ("d/y.yml", some ⟨some ["x.yml"], some [ruleY]⟩)]
  , parent := fun _ => "d"
  , join := fun dir inc => dir ++ "/" ++ inc }

/-- A root with one include and an own rule matching the same text as the
included document's rule. -/
def fsOwn : FileSystem :=
  { canon := fun p => if p = "root.yml" ∨ p = "inc.yml" then some p else none
  , docs := [("root.yml", some ⟨some ["inc.yml"], some [xBlue]⟩),
             ("inc.yml", some ⟨none, some [xRed]⟩)]
  , parent := fun _ => "."
  , join := fun _ inc => inc }

/-- A readable root with rules of its own whose include is unreadable, and a
document that reads but does not parse. -/
def fsErr : FileSystem :=
  { canon := fun p => if p = "root.yml" ∨ p = "missing.yml" ∨ p = "bad.yml" then some p else none
  , docs := [("root.yml", some ⟨some ["missing.yml"], some [ruleRoot]⟩),
             ("bad.yml", none)]
  , parent := fun _ => "."
  , join := fun _ inc => inc }

/-! ## Claims -/

/-- Claim C1: for every compiled engine and line, when two or more rules can
match at the same start position, the earliest rule in the resolved list
wins - the match is that rule's own preferred match and its capture group
fires, while every earlier rule has no match at the position and later
rules, including ones that would match a longer span, have no influence.
Concretely, with literal "a" colored Red listed before regex "a|ab" colored
Blue, rendering "ab" colors only "a" Red and leaves "b" uncolored. -/
theorem C1_first_rule_wins :
    (∀ (ic : Bool) (p : Regex) (rest : List Regex) (s m : List Char) (w : Option Nat),
        matchHere ic (p :: rest) s = some (m, w) →
        ∃ i pi, w = some i ∧ (p :: rest)[i]? = some pi ∧
          (pmatches ic pi s).head? = some (m, s.drop m.length) ∧
          ∀ j pj, j < i → (p :: rest)[j]? = some pj → pmatches ic pj s = []) ∧
    (∀ parse : String → Regex,
        parse "a|ab" = .alt (.char 'a') (.cat (.char 'a') (.char 'b')) →
        (HighlightingEngine.new parse
            [⟨"a", .Preset .Red, false⟩, ⟨"a|ab", .Preset .Blue, true⟩]
            false).render_line "ab" = "\x1b[31ma\x1b[0mb") := by
  constructor
  · exact matchHere_first_wins
  · intro parse hp
    have he : HighlightingEngine.new parse
        [⟨"a", .Preset .Red, false⟩, ⟨"a|ab", .Preset .Blue, true⟩] false =
        HighlightingEngine.new (fun _ => .alt (.char 'a') (.cat (.char 'a') (.char 'b')))
          [⟨"a", .Preset .Red, false⟩, ⟨"a|ab", .Preset .Blue, true⟩] false := by
      simp [HighlightingEngine.new, compiledPattern, hp]
    rw [he]
    decide

theorem C1_witness :
    (HighlightingEngine.new (fun _ => Regex.alt (.char 'a') (.cat (.char 'a') (.char 'b')))
        [⟨"a", .Preset .Red, false⟩, ⟨"a|ab", .Preset .Blue, true⟩]
        false).render_line "ab" = "\x1b[31ma\x1b[0mb" :=
  C1_first_rule_wins.2 (fun _ => Regex.alt (.char 'a') (.cat (.char 'a') (.char 'b'))) rfl

/-- Claim C2: rule resolution terminates on every configuration graph (with
more fuel than unvisited documents the recursion never exhausts it), a
repeat visit of an already visited document contributes an empty rule list
rather than an error, and each distinct document's own rules appear in the
result exactly once (the newly visited documents are distinct and the
result is their own rules, one contribution each); concretely, on the
direct two-document cycle resolution succeeds with each document's rule
exactly once. -/
theorem C2_cycle_termination :
    (∀ (fs : FileSystem) (n : Nat) (p : String) (v : List String),
        unvisitedCount fs v < n →
        load_rules_recursive fs n p v ≠ .error .Fuel) ∧
    (∀ (fs : FileSystem) (n : Nat) (p : String) (v : List String) (cp : String),
        fs.canon p = some cp → cp ∈ v →
        load_rules_recursive fs (n+1) p v = .ok ([], [])) ∧
    (∀ (fs : FileSystem) (n : Nat) (p : String) (v : List String)
        (r : List Rule) (d : List String),
        load_rules_recursive fs n p v = .ok (r, d) →
        d.Nodup ∧ r.Perm ((d.map (ownRules fs)).flatten)) ∧
    load_rules_from_file fsCycle "a.yml" = .ok [ruleB, ruleA] := by
  refine ⟨load_noFuel, load_revisit, ?_, rfl⟩
  intro fs n p v r d h
  exact ⟨(load_delta fs n p v r d h).1, load_perm fs n p v r d h⟩

theorem C2_witness :
    load_rules_recursive fsCycle 3 "a.yml" [] ≠ .error .Fuel ∧
    load_rules_recursive fsCycle 1 "a.yml" ["a.yml"] = .ok ([], []) ∧
    (["a.yml", "b.yml"].Nodup ∧
      ([ruleB, ruleA]).Perm (((["a.yml", "b.yml"]).map (ownRules fsCycle)).flatten)) := by
  refine ⟨C2_cycle_termination.1 fsCycle 3 "a.yml" [] (by decide), ?_, ?_⟩
  · exact C2_cycle_termination.2.1 fsCycle 0 "a.yml" ["a.yml"] "a.yml" rfl (by decide)
  · exact C2_cycle_termination.2.2.1 fsCycle 3 "a.yml" [] [ruleB, ruleA]
      ["a.yml", "b.yml"] rfl

/-- Claim C3: for every include graph (in particular every acyclic one) the
resolved rule list equals the depth-first traversal of specification 4.1:
include references are resolved relative to the including document's
directory and recursed into in listed order, and a document's own rules are
appended after all rules coming from its includes - the loader coincides
with the specification's threaded-visited-set resolution on all inputs;
concretely, the diamond graph resolves to the DFS include-before-own
order. -/
theorem C3_dfs_order :
    (∀ (fs : FileSystem) (n : Nat) (p : String) (v : List String),
        specResolve fs n p v =
          (load_rules_recursive fs n p v).map (fun rd => (rd.1, v ++ rd.2))) ∧
    load_rules_from_file fsC3 "d/root.yml" = .ok [ruleX, ruleY, ruleRoot] :=
  ⟨specResolve_eq, rfl⟩

/-- Claim C4: included rules take precedence over the including document's
own rules: resolution appends a document's own rules after its includes,
and whenever any rule of the earlier block can match at the position of a
match, the winning capture group lies in the earlier block; concretely,
with an included rule "x" Red and an own rule "x" Blue, resolution yields
the included rule first and rendering "x" applies Red. -/
theorem C4_include_precedence :
    (∀ (ic : Bool) (front back : List Regex) (s m : List Char) (w : Option Nat)
        (j : Nat) (pj : Regex),
        matchHere ic (front ++ back) s = some (m, w) →
        front[j]? = some pj → pmatches ic pj s ≠ [] →
        ∃ i, w = some i ∧ i < front.length) ∧
    load_rules_from_file fsOwn "root.yml" = .ok [xRed, xBlue] ∧
    (HighlightingEngine.new parse0 [xRed, xBlue] false).render_line "x" =
      "\x1b[31mx\x1b[0m" := by
  refine ⟨?_, rfl, by decide⟩
  intro ic front back s m w j pj hm hg hne
  have hw := matchHere_winner ic (front ++ back) s m w hm
  obtain ⟨i, hwi, hlt⟩ := winnerIdx_append_front ic front back s j pj hg hne
  exact ⟨i, by rw [hw, hwi], hlt⟩

theorem C4_witness :
    matchHere false [litRegex "x", litRegex "y"] "x".data = some ("x".data, some 0) ∧
    ∃ i, (some 0 : Option Nat) = some i ∧ i < 1 := by
  refine ⟨by decide, ?_⟩
  exact C4_include_precedence.1 false [litRegex "x"] [litRegex "y"] "x".data "x".data
    (some 0) 0 (litRegex "x") (by decide) (by decide) (by decide)

/-- Claim C5: rendering's matches are pairwise non-overlapping and found
left to right with scanning resuming after each match's end: the segment
decomposition accounts for every input character exactly once in order, and
the output is exactly the segments rendered in order; concretely, literal
rules "ab" and "cd" on input "abcd" color both spans adjacently with no
character omitted, duplicated or shared. -/
theorem C5_non_overlap :
    (∀ (e : HighlightingEngine) (n : Nat) (b : Bool) (s : List Char),
        ((segsGo e n b s).map segIn).flatten = s) ∧
    (∀ (e : HighlightingEngine) (n : Nat) (b : Bool) (s : List Char),
        renderGo e n b s = ((segsGo e n b s).map (segOut e.ansi_colors)).flatten) ∧
    (HighlightingEngine.new parse0
        [⟨"ab", .Preset .Red, false⟩, ⟨"cd", .Preset .Blue, false⟩]
        false).render_line "abcd" = "\x1b[31mab\x1b[0m\x1b[34mcd\x1b[0m" :=
  ⟨segsGo_input, renderGo_eq_segs, by decide⟩

/-- Claim C6: the concrete scenario of specification 8: rules ERROR Red and
WARN Yellow, both literal, render "ERROR: WARN: ok" to exactly the expected
escape-wrapped output, and the six preset colors render as the standard
8-color foreground escape codes. -/
theorem C6_concrete_scenario :
    (HighlightingEngine.new parse0
        [⟨"ERROR", .Preset .Red, false⟩, ⟨"WARN", .Preset .Yellow, false⟩]
        false).render_line "ERROR: WARN: ok" =
      "\x1b[31mERROR\x1b[0m: \x1b[33mWARN\x1b[0m: ok" ∧
    Color.to_ansi (.Preset .Red) = "\x1b[31m" ∧
    Color.to_ansi (.Preset .Yellow) = "\x1b[33m" ∧
    Color.to_ansi (.Preset .Blue) = "\x1b[34m" ∧
    Color.to_ansi (.Preset .Green) = "\x1b[32m" ∧
    Color.to_ansi (.Preset .Cyan) = "\x1b[36m" ∧
    Color.to_ansi (.Preset .Magenta) = "\x1b[35m" :=
  ⟨by decide, rfl, rfl, rfl, rfl, rfl, rfl⟩

/-- Claim C7: a line on which no rule matches anywhere renders byte
identical to the input line. -/
theorem C7_pass_through :
    ∀ (e : HighlightingEngine) (s : String),
      (∀ t ∈ s.data.tails, ∀ p ∈ e.patterns, pmatches e.case_insensitive p t = []) →
      e.render_line s = s := by
  intro e s H
  unfold HighlightingEngine.render_line
  cases hp : e.patterns with
  | nil =>
    rw [renderGo_nil_patterns e hp]
  | cons p rest =>
    have hmain : renderGo e (s.data.length + 1) false s.data = s.data := by
      apply renderGo_no_match
      intro t ht
      rw [hp]
      apply matchHere_eq_none
      intro q hq
      refine H t ((List.mem_tails t s.data).mpr ht) q ?_
      rw [hp]
      exact hq
    rw [hmain]

theorem C7_witness :
    (∀ t ∈ "hi".data.tails,
        ∀ p ∈ (HighlightingEngine.new parse0 [⟨"x", .Preset .Red, false⟩] false).patterns,
        pmatches
          (HighlightingEngine.new parse0 [⟨"x", .Preset .Red, false⟩] false).case_insensitive
          p t = []) ∧
    (HighlightingEngine.new parse0 [⟨"x", .Preset .Red, false⟩] false).render_line "hi" =
      "hi" :=
  ⟨by decide,
   C7_pass_through (HighlightingEngine.new parse0 [⟨"x", .Preset .Red, false⟩] false) "hi"
     (by decide)⟩

/-- Claim C8: the compile-time ignore_case flag applies uniformly: an
escaped literal keyword matches at a position exactly when its characters
match one by one under the single engine-wide flag; with ignore_case true
the literal "Error" matches input "error" and the span is colored, with
ignore_case false it does not match and the line passes through. -/
theorem C8_ignore_case :
    (∀ (ic : Bool) (kw s : List Char),
        pmatches ic (litRegexL kw) s =
          if litAccepts ic kw s then [(s.take kw.length, s.drop kw.length)] else []) ∧
    (HighlightingEngine.new parse0 [⟨"Error", .Preset .Red, false⟩] true).render_line
      "error" = "\x1b[31merror\x1b[0m" ∧
    (HighlightingEngine.new parse0 [⟨"Error", .Preset .Red, false⟩] false).render_line
      "error" = "error" :=
  ⟨pmatches_lit, by decide, by decide⟩

/-- Claim C9: resolution errors when the root or any newly encountered
included document cannot be canonicalized, read, or parsed, returning an
error and no rule list at all; a repeated include of an already visited
document never errors; concretely, a readable root with rules of its own
whose include is unreadable aborts the whole load with an I/O error. -/
theorem C9_error_handling :
    (∀ (fs : FileSystem) (n : Nat) (p : String) (v : List String),
        fs.canon p = none → load_rules_recursive fs (n+1) p v = .error .Io) ∧
    (∀ (fs : FileSystem) (n : Nat) (p : String) (v : List String) (cp : String),
        fs.canon p = some cp → cp ∉ v → fs.docs.lookup cp = none →
        load_rules_recursive fs (n+1) p v = .error .Io) ∧
    (∀ (fs : FileSystem) (n : Nat) (p : String) (v : List String) (cp : String),
        fs.canon p = some cp → cp ∉ v → fs.docs.lookup cp = some none →
        load_rules_recursive fs (n+1) p v = .error .Parse) ∧
    (∀ (fs : FileSystem) (n : Nat) (p : String) (v : List String) (cp : String),
        fs.canon p = some cp → cp ∈ v →
        load_rules_recursive fs (n+1) p v = .ok ([], [])) ∧
    load_rules_from_file fsErr "root.yml" = .error .Io :=
  ⟨load_canon_err, load_read_err, load_parse_err, load_revisit, rfl⟩

theorem C9_witness :
    load_rules_recursive fsErr 1 "nowhere.yml" [] = .error .Io ∧
    load_rules_recursive fsErr 1 "missing.yml" [] = .error .Io ∧
    load_rules_recursive fsErr 1 "bad.yml" [] = .error .Parse ∧
    load_rules_recursive fsErr 1 "root.yml" ["root.yml"] = .ok ([], []) := by
  refine ⟨?_, ?_, ?_, ?_⟩
  · exact C9_error_handling.1 fsErr 0 "nowhere.yml" [] (by decide)
  · exact C9_error_handling.2.1 fsErr 0 "missing.yml" [] "missing.yml" rfl
      (by decide) (by decide)
  · exact C9_error_handling.2.2.1 fsErr 0 "bad.yml" [] "bad.yml" rfl
      (by decide) (by decide)
  · exact C9_error_handling.2.2.2.1 fsErr 0 "root.yml" ["root.yml"] "root.yml" rfl
      (by decide)

/-- Claim C10: with the empty rule list compilation yields the empty
combined pattern, which matches the empty string at every position with no
capture group firing, and the engine renders every input line unchanged. -/
theorem C10_empty_rules :
    (∀ (ic : Bool) (t : List Char), matchHere ic [] t = some ([], none)) ∧
    (∀ (ic : Bool) (s : String),
        (HighlightingEngine.new parse0 [] ic).render_line s = s) := by
  refine ⟨matchHere_nil, ?_⟩
  intro ic s
  unfold HighlightingEngine.render_line
  rw [renderGo_nil_patterns _ rfl]
